import Mathlib

/-!
Verification development for the git-slide-import diff-to-slide pipeline.

Strings are modelled as lists of characters (`Str`).  Each definition is a
direct translation of the corresponding TypeScript function from
`diff-parser.ts` / `slide-generator.ts`; JavaScript regular expressions are
modelled by explicit scanning functions whose doc comments name the regex
they implement.  JavaScript's `\s` class is modelled by `jsWS`, covering its
ASCII and Latin-1 members (the wider Unicode space category does not occur in
any input considered here).
-/

abbrev Str := List Char

/-- Model of the JavaScript `\s` character class (ASCII/Latin-1 members). -/
def jsWS (c : Char) : Bool :=
  c = ' ' || c = '\t' || c = '\n' || c = '\r' || c = '\x0b' || c = '\x0c' ||
  c = '\xa0'

/-- Model of the JavaScript `\w` character class `[A-Za-z0-9_]`. -/
def isWordChar (c : Char) : Bool :=
  ('a' ≤ c && c ≤ 'z') || ('A' ≤ c && c ≤ 'Z') || ('0' ≤ c && c ≤ '9') || c = '_'

/-- Model of JavaScript `String.prototype.split` with a one-character
separator: `"".split(sep) = [""]`, separators delimit (possibly empty)
fields. -/
def splitOnC (sep : Char) : Str → List Str
  | [] => [[]]
  | c :: cs =>
    match splitOnC sep cs with
    | [] => [[c]]
    | l :: ls => if c = sep then [] :: l :: ls else (c :: l) :: ls

/-- `text.split('\n')`. -/
def splitOnNl (s : Str) : List Str := splitOnC '\n' s

/-- `lines.join('\n')`. -/
def nlJoin (ls : List Str) : Str := List.intercalate ['\n'] ls

/-- `s.startsWith(p)` as an `Option` that also drops the prefix. -/
def dropPre (p s : Str) : Option Str :=
  if p.isPrefixOf s then some (s.drop p.length) else none

/-- JavaScript `String.prototype.trim` (leading and trailing whitespace). -/
def jsTrim (s : Str) : Str :=
  ((s.dropWhile jsWS).reverse.dropWhile jsWS).reverse

/-- JavaScript `String.prototype.trimEnd`. -/
def jsTrimEnd (s : Str) : Str :=
  (s.reverse.dropWhile jsWS).reverse

/-- Model of `s.indexOf(pat)` (first index at which `pat` occurs). -/
def firstSubIdx : Str → Str → Option Nat
  | s, pat =>
    if pat.isPrefixOf s then some 0
    else match s with
      | [] => none
      | _ :: rest => (firstSubIdx rest pat).map (· + 1)

/-- Model of `s.replace(pat, rep)` with a plain-string pattern: replaces the
first occurrence only. -/
def replaceFirst (s pat rep : Str) : Str :=
  match firstSubIdx s pat with
  | none => s
  | some i => s.take i ++ rep ++ s.drop (i + pat.length)

/-- `String(n)` for a natural number. -/
def natStr (n : Nat) : Str := (toString n).data

/-- `String(n)` for a JavaScript number holding an integer. -/
def intStr (n : Int) : Str := (toString n).data

/-- `s.slice(-2)`: the last two characters (the whole string if shorter). -/
def sliceLast2 (s : Str) : Str := s.drop (s.length - 2)

/-- `s.padStart(2, '0')`. -/
def pad2 (s : Str) : Str :=
  if s.length ≥ 2 then s else List.replicate (2 - s.length) '0' ++ s

/-- Length of the leading run matched by `/^(\s*)/`. -/
def leadingWS (line : Str) : Nat := (line.takeWhile jsWS).length

/-- `line.trim() === ''`. -/
def isBlankLine (line : Str) : Bool := jsTrim line = []

/-! ## Data model (`types.ts`) -/

inductive LineType | context | added | removed
deriving DecidableEq, Repr

/-- `DiffLine` from `types.ts`. -/
structure DiffLine where
  type : LineType
  content : Str
  oldLineNumber : Option Int
  newLineNumber : Option Int
deriving DecidableEq, Repr

/-- `DiffHunk` from `types.ts`. -/
structure DiffHunk where
  oldStart : Int
  oldLines : Int
  newStart : Int
  newLines : Int
  addedLineNumbers : List Int
  removedLineNumbers : List Int
  lines : List DiffLine
deriving DecidableEq, Repr

/-! ## Diff parser (`diff-parser.ts`) -/

/-- Model of the hunk-header regex
`/^@@ -(\d+),?(\d*) \+(\d+),?(\d*) @@/`: returns
`(oldStart, oldCount?, newStart, newCount?)` where a count is `none` when its
digit group matched the empty string.  Greedy digit runs are maximal runs;
the regex and this scanner fail on exactly the same inputs. -/
def matchHunkHeader (line : Str) : Option (Nat × Option Nat × Nat × Option Nat) :=
  match dropPre "@@ -".data line with
  | none => none
  | some s0 =>
    let d1 := s0.takeWhile Char.isDigit
    let s1 := s0.dropWhile Char.isDigit
    if d1 = [] then none else
    let p2 : Str × Str := match s1 with
      | ',' :: r => (r.takeWhile Char.isDigit, r.dropWhile Char.isDigit)
      | _ => ([], s1)
    match dropPre " +".data p2.2 with
    | none => none
    | some s2 =>
      let d3 := s2.takeWhile Char.isDigit
      let s3 := s2.dropWhile Char.isDigit
      if d3 = [] then none else
      let p4 : Str × Str := match s3 with
        | ',' :: r => (r.takeWhile Char.isDigit, r.dropWhile Char.isDigit)
        | _ => ([], s3)
      match dropPre " @@".data p4.2 with
      | none => none
      | some _ =>
        some (Nat.ofDigits 10 ((d1.map (fun c => c.toNat - '0'.toNat)).reverse),
              (if p2.1 = [] then none
               else some (Nat.ofDigits 10 ((p2.1.map (fun c => c.toNat - '0'.toNat)).reverse)),
               Nat.ofDigits 10 ((d3.map (fun c => c.toNat - '0'.toNat)).reverse),
               if p4.1 = [] then none
               else some (Nat.ofDigits 10 ((p4.1.map (fun c => c.toNat - '0'.toNat)).reverse))))

/-- The metadata test of `parseDiffHunks`: lines starting with `diff `,
`index `, `--- `, `+++ ` or `Binary ` are skipped. -/
def isMetaLine (line : Str) : Bool :=
  "diff ".data.isPrefixOf line || "index ".data.isPrefixOf line ||
  "--- ".data.isPrefixOf line || "+++ ".data.isPrefixOf line ||
  "Binary ".data.isPrefixOf line

/-- The mutable state of `parseDiffHunks`' scan. -/
structure ParseState where
  hunks : List DiffHunk
  currentHunk : Option DiffHunk
  oldLineNum : Int
  newLineNum : Int
deriving DecidableEq, Repr

/-- One iteration of the `for (const line of lines)` loop of
`parseDiffHunks`. -/
def processDiffLine (st : ParseState) (line : Str) : ParseState :=
  match matchHunkHeader line with
  | some (oldStart, oldCnt, newStart, newCnt) =>
    { hunks := st.hunks ++ (match st.currentHunk with
        | some h => [h]
        | none => []),
      currentHunk := some
        { oldStart := oldStart, oldLines := oldCnt.getD 1,
          newStart := newStart, newLines := newCnt.getD 1,
          addedLineNumbers := [], removedLineNumbers := [], lines := [] },
      oldLineNum := oldStart, newLineNum := newStart }
  | none =>
    match st.currentHunk with
    | none => st
    | some h =>
      if isMetaLine line then st
      else if line.head? = some '+' then
        { st with
          currentHunk := some { h with
            addedLineNumbers := h.addedLineNumbers ++ [st.newLineNum],
            lines := h.lines ++
              [⟨LineType.added, line.drop 1, none, some st.newLineNum⟩] },
          newLineNum := st.newLineNum + 1 }
      else if line.head? = some '-' then
        { st with
          currentHunk := some { h with
            removedLineNumbers := h.removedLineNumbers ++ [st.oldLineNum],
            lines := h.lines ++
              [⟨LineType.removed, line.drop 1, some st.oldLineNum, none⟩] },
          oldLineNum := st.oldLineNum + 1 }
      else if line.head? = some ' ' || line = [] then
        { st with
          currentHunk := some { h with
            lines := h.lines ++
              [⟨LineType.context,
                if line.head? = some ' ' then line.drop 1 else line,
                some st.oldLineNum, some st.newLineNum⟩] },
          oldLineNum := st.oldLineNum + 1,
          newLineNum := st.newLineNum + 1 }
      else st

/-- `parseDiffHunks` from `diff-parser.ts`. -/
def parseDiffHunks (diffOutput : Str) : List DiffHunk :=
  let st := (splitOnNl diffOutput).foldl processDiffLine ⟨[], none, 0, 0⟩
  st.hunks ++ (match st.currentHunk with
    | some h => [h]
    | none => [])


/-! ## Range compressor (`diff-parser.ts`) -/

/-- Model of `[...lineNumbers].sort((a, b) => a - b)`: the ascending
rearrangement (any correct ascending sort of the same multiset yields the
same list of values). -/
def sortInts (l : List Int) : List Int := List.insertionSort (· ≤ ·) l

/-- One range token: `start === end ? `${start}` : `${start}-${end}``. -/
def rangeToken (s e : Int) : Str :=
  if s = e then intStr s else intStr s ++ '-' :: intStr e

/-- The `for (let i = 1; ...)` loop of `compressToRanges`, carrying
`start`/`end` and emitting tokens. -/
def rangesLoop : List Int → Int → Int → List Str
  | [], s, e => [rangeToken s e]
  | c :: rest, s, e =>
    if c = e + 1 then rangesLoop rest s c
    else rangeToken s e :: rangesLoop rest c c

/-- `compressToRanges` from `diff-parser.ts`. -/
def compressToRanges (lineNumbers : List Int) : List Str :=
  match sortInts lineNumbers with
  | [] => []
  | x :: rest => rangesLoop rest x x

inductive HighlightMode | all | stepped
deriving DecidableEq, Repr

/-- The separator `mode === 'stepped' ? '|' : ','`. -/
def modeSep (mode : HighlightMode) : Str :=
  match mode with
  | .stepped => ['|']
  | .all => [',']

/-- `generateHighlightString` from `diff-parser.ts`. -/
def generateHighlightString (hunks : List DiffHunk) (mode : HighlightMode) : Str :=
  let allAddedLines := hunks.foldl (fun acc h => acc ++ h.addedLineNumbers) []
  if allAddedLines = [] then []
  else List.intercalate (modeSep mode) (compressToRanges allAddedLines)

/-! ## Content formatter (`diff-parser.ts`) -/

/-- The `minIndent` scan of `deindent` (`none` models `Infinity`). -/
def minIndentScan (lines : List Str) : Option Nat :=
  lines.foldl
    (fun m line =>
      if isBlankLine line then m
      else match m with
        | none => some (leadingWS line)
        | some k => if leadingWS line < k then some (leadingWS line) else some k)
    none

/-- `deindent` from `diff-parser.ts`. -/
def deindent (text : Str) : Str :=
  let lines := splitOnNl text
  match minIndentScan lines with
  | none => text
  | some 0 => text
  | some k => nlJoin (lines.map (List.drop k))

/-- The per-hunk filter of `formatDiffContent`: a line is skipped exactly
when it is `removed` and `includeRemoved` is false. -/
def keepLine (includeRemoved : Bool) (l : DiffLine) : Bool :=
  !(l.type = LineType.removed && !includeRemoved)

/-- The `outputLines` accumulated by `formatDiffContent`'s loop (hunks'
kept-line contents with a `// ...` separator pushed between consecutive
hunks). -/
def formatDiffContentLines : List DiffHunk → Bool → List Str
  | [], _ => []
  | [h], inc => ((h.lines.filter (keepLine inc)).map DiffLine.content)
  | h :: h2 :: rest, inc =>
    ((h.lines.filter (keepLine inc)).map DiffLine.content) ++
      "// ...".data :: formatDiffContentLines (h2 :: rest) inc

/-- `formatDiffContent` from `diff-parser.ts`.  Its TypeScript signature is
`(hunks, includeRemoved = false)`; callers pass a third `lineChangeDisplay`
argument that the function does not declare and never reads. -/
def formatDiffContent (hunks : List DiffHunk) (includeRemoved : Bool) : Str :=
  deindent (nlJoin (formatDiffContentLines hunks includeRemoved))


/-! ## Slide generator data model (`types.ts`, `slide-generator.ts`) -/

inductive LineChangeDisplay | additionsOnly | fullDiff
deriving DecidableEq, Repr

inductive SlideOrganization | flat | grouped | progressive | perHunk
deriving DecidableEq, Repr

inductive SlideTitlePolicy | commit | file | both
deriving DecidableEq, Repr

/-- `SlideFormatOptions` from `types.ts`. -/
structure SlideFormatOptions where
  showLineNumbers : Bool
  highlightAddedLines : Bool
  highlightMode : HighlightMode
  lineChangeDisplay : LineChangeDisplay
  includeCommitMessage : Bool
  includeFileSummary : Bool
  includeAuthorDate : Bool
  showFullFile : Bool
  contextLines : Int
  slideOrganization : SlideOrganization
  slideTitle : SlideTitlePolicy
  commitDetailsTemplate : Str
  slideTemplate : Str
  dateFormat : Str
deriving DecidableEq, Repr

inductive FileStatus | added | modified | deleted | renamed
deriving DecidableEq, Repr

/-- `GitFileChange` from `types.ts`. -/
structure GitFileChange where
  path : Str
  status : FileStatus
  additions : Int
  deletions : Int
deriving DecidableEq, Repr

/-- The slice of a JavaScript `Date` read by `formatDateWithFormat`. -/
structure JsDate where
  getFullYear : Nat
  getMonth : Nat
  getDate : Nat
  getHours : Nat
  getMinutes : Nat
deriving DecidableEq, Repr

/-- `GitCommit` from `types.ts`. -/
structure GitCommit where
  hash : Str
  hashShort : Str
  message : Str
  author : Str
  date : JsDate
  files : List GitFileChange
deriving DecidableEq, Repr

/-- `GitFileDiff` from `types.ts` (`newContent : string | null`). -/
structure GitFileDiff where
  path : Str
  hunks : List DiffHunk
  newContent : Option Str
  language : Str
deriving DecidableEq, Repr

/-- `GeneratedSlide` from `types.ts`. -/
structure GeneratedSlide where
  title : Str
  content : Str
  notes : Option Str
deriving DecidableEq, Repr

/-- A `TemplateVariables` object: an association list where a later binding
shadows an earlier one, matching object-spread semantics
(`{...a, ...b}`). -/
abbrev Vars := List (Str × Str)

/-- Property access `vars[name]` under last-binding-wins spread
semantics. -/
def varLookup (vs : Vars) (n : Str) : Option Str :=
  (vs.reverse.find? (fun p => decide (p.1 = n))).map Prod.snd

/-! ## `createSafeCodeBlock` (`slide-generator.ts`) -/

/-- Scanner behind `content.match(/`+/g)`: the lengths of the maximal
backtick runs, in order (`k` is the length of the run currently open). -/
def backtickRunsGo : Str → Nat → List Nat
  | [], k => if k = 0 then [] else [k]
  | c :: rest, k =>
    if c = '\x60' then backtickRunsGo rest (k + 1)
    else (if k = 0 then [] else [k]) ++ backtickRunsGo rest 0

/-- Lengths of the maximal backtick runs of `s` (the `/`+/g` matches). -/
def backtickRuns (s : Str) : List Nat := backtickRunsGo s 0

/-- `Math.max(...match lengths)`, `0` when there is no match. -/
def maxBacktickRun (s : Str) : Nat := (backtickRuns s).foldl max 0

/-- `createSafeCodeBlock` from `slide-generator.ts`. -/
def createSafeCodeBlock (content langSpec : Str) : Str :=
  let fenceLength := max 3 (maxBacktickRun content + 1)
  let fence : Str := List.replicate fenceLength '\x60'
  fence ++ langSpec ++ '\n' :: jsTrimEnd content ++ '\n' :: fence

/-! ## Template engine (`SlideGenerator.renderTemplate`) -/

/-- Matcher for one line of pass 1's regex
`/^[ \t]*\{\{(\w+)\}\}[ \t]*$/gm`: returns the captured variable name when
the whole line is a lone placeholder. -/
def matchFullPlaceholder (line : Str) : Option Str :=
  let s := line.dropWhile (fun c => c = ' ' || c = '\t')
  match dropPre ['\x7b', '\x7b'] s with
  | none => none
  | some s1 =>
    let name := s1.takeWhile isWordChar
    let s2 := s1.dropWhile isWordChar
    if name = [] then none
    else match dropPre ['\x7d', '\x7d'] s2 with
      | none => none
      | some s3 =>
        if s3.all (fun c => c = ' ' || c = '\t') then some name else none

/-- Pass 1 on one line: `vars[varName]?.trim() ?? ''` replaces a lone
placeholder line; other lines are unchanged. -/
def pass1Line (vars : Vars) (line : Str) : Str :=
  match matchFullPlaceholder line with
  | some name =>
    (match varLookup vars name with
     | some v => jsTrim v
     | none => [])
  | none => line

/-- Pass 1 of `renderTemplate` (the multiline whole-line replace). -/
def pass1 (vars : Vars) (text : Str) : Str :=
  nlJoin ((splitOnNl text).map (pass1Line vars))

/-- Fuelled scanner for pass 2 of `renderTemplate`, the global inline
replace `/\{\{(\w+)\}\}/g` with `vars[varName] ?? ''`.  The scan is
left-to-right, advances past each match without re-scanning substituted
text, and moves one character on a failed match attempt.  The fuel only
makes the recursion structural: with `fuel ≥ s.length` (as `pass2` supplies)
the exhaustion branch is unreachable. -/
def pass2Aux (vars : Vars) : Nat → Str → Str
  | 0, s => s
  | _ + 1, [] => []
  | fuel + 1, '\x7b' :: '\x7b' :: rest =>
    let name := rest.takeWhile isWordChar
    let s2 := rest.dropWhile isWordChar
    if name ≠ [] ∧ ['\x7d', '\x7d'].isPrefixOf s2 then
      ((varLookup vars name).getD []) ++ pass2Aux vars fuel (s2.drop 2)
    else '\x7b' :: pass2Aux vars fuel ('\x7b' :: rest)
  | fuel + 1, c :: rest => c :: pass2Aux vars fuel rest

/-- Pass 2 of `renderTemplate`. -/
def pass2 (vars : Vars) (s : Str) : Str := pass2Aux vars s.length s

/-- Emit a pending run of `k` newlines under the pass-3 collapse
`/\n{3,}/g → "\n\n"`. -/
def collapseRun (k : Nat) : Str :=
  if k ≥ 3 then ['\n', '\n'] else List.replicate k '\n'

/-- Scanner for pass 3, carrying the length of the current newline run. -/
def collapseNlAux : Str → Nat → Str
  | [], k => collapseRun k
  | c :: rest, k =>
    if c = '\n' then collapseNlAux rest (k + 1)
    else collapseRun k ++ c :: collapseNlAux rest 0

/-- Pass 3 of `renderTemplate`: `result.replace(/\n{3,}/g, '\n\n')`. -/
def collapseNl (s : Str) : Str := collapseNlAux s 0

/-- `SlideGenerator.renderTemplate` from `slide-generator.ts`. -/
def renderTemplate (template : Str) (vars : Vars) : Str :=
  jsTrim (collapseNl (pass2 vars (pass1 vars template)))

/-! ## Commit-message and author parsing (`slide-generator.ts`) -/

/-- Index of the last `'\n'` in a list, if any. -/
def lastNlIdx : Str → Option Nat
  | [] => none
  | c :: rest =>
    match lastNlIdx rest with
    | some j => some (j + 1)
    | none => if c = '\n' then some 0 else none

/-- Model of `message.match(/^(.+?)\n\s*\n([\s\S]*)$/)`.  The lazy `(.+?)`
cannot cross a newline, so group 1 is forced to be the whole (non-empty)
first line; the greedy `\s*` then requires a further `'\n'` inside the
leading whitespace run of the remainder and backtracks to the last such
`'\n'`.  Returns `(group1, group2)`. -/
def emptyLineMatch (message : Str) : Option (Str × Str) :=
  let L1 := message.takeWhile (fun c => c ≠ '\n')
  if L1 = [] then none
  else if L1.length = message.length then none
  else
    let rest := message.drop (L1.length + 1)
    match lastNlIdx (rest.takeWhile jsWS) with
    | none => none
    | some j => some (L1, rest.drop (j + 1))

/-- `SlideGenerator.parseCommitMessage` from `slide-generator.ts`
(returned as a `(title, body)` pair). -/
def parseCommitMessage (message : Str) : Str × Str :=
  if message = [] then ([], [])
  else
    match emptyLineMatch message with
    | some (t, b) => (jsTrim t, jsTrim b)
    | none =>
      let L1 := message.takeWhile (fun c => c ≠ '\n')
      if L1.length < message.length then
        (jsTrim L1, jsTrim (message.drop (L1.length + 1)))
      else if message.length > 72 then
        match firstSubIdx message ". ".data with
        | some p =>
          if p < 100 then
            (jsTrim (message.take (p + 1)), jsTrim (message.drop (p + 2)))
          else (jsTrim message, [])
        | none => (jsTrim message, [])
      else (jsTrim message, [])

/-- `(.+)>$` part of the author regex: the tail after `'<'` must be a
non-empty newline-free segment followed by a final `'>'`. -/
def matchEmailTail (tail : Str) : Option Str :=
  match tail.reverse with
  | '>' :: emRev =>
    if emRev ≠ [] ∧ emRev.all (fun c => c ≠ '\n') then some emRev.reverse
    else none
  | _ => none

/-- Search loop for `/^(.+?)\s*<(.+)>$/`: `nameRev` is the reversed group-1
candidate; the lazy `(.+?)` extends one character at a time, stopping at the
first position where `\s*<(.+)>$` completes, and can never include a
newline. -/
def authorGo : Str → Str → Option (Str × Str)
  | nameRev, rest =>
    let cand : Option (Str × Str) :=
      match rest.dropWhile jsWS with
      | '<' :: tail =>
        (match matchEmailTail tail with
         | some em => some (nameRev.reverse, em)
         | none => none)
      | _ => none
    match cand with
    | some r => some r
    | none =>
      match rest with
      | [] => none
      | c :: r => if c = '\n' then none else authorGo (c :: nameRev) r

/-- Model of `commit.author.match(/^(.+?)\s*<(.+)>$/)`. -/
def parseAuthorMatch (author : Str) : Option (Str × Str) :=
  match author with
  | [] => none
  | c :: rest => if c = '\n' then none else authorGo [c] rest

/-! ## Date formatting (`SlideGenerator.formatDateWithFormat`) -/

def monthsShort : List Str :=
  (["Jan", "Feb", "Mar", "Apr", "May", "Jun", "Jul", "Aug", "Sep", "Oct",
    "Nov", "Dec"]).map String.data

def monthsFull : List Str :=
  (["January", "February", "March", "April", "May", "June", "July",
    "August", "September", "October", "November", "December"]).map String.data

/-- `SlideGenerator.formatDateWithFormat`: a chain of first-occurrence
string replacements applied in source order. -/
def formatDateWithFormat (opts : SlideFormatOptions) (date : JsDate) : Str :=
  let r0 := opts.dateFormat
  let r1 := replaceFirst r0 "yyyy".data (natStr date.getFullYear)
  let r2 := replaceFirst r1 "yy".data (sliceLast2 (natStr date.getFullYear))
  let r3 := replaceFirst r2 "MMMM".data ((monthsFull.get? date.getMonth).getD [])
  let r4 := replaceFirst r3 "MMM".data ((monthsShort.get? date.getMonth).getD [])
  let r5 := replaceFirst r4 "MM".data (pad2 (natStr (date.getMonth + 1)))
  let r6 := replaceFirst r5 "dd".data (pad2 (natStr date.getDate))
  let r7 := replaceFirst r6 "d".data (natStr date.getDate)
  let r8 := replaceFirst r7 "HH".data (pad2 (natStr date.getHours))
  replaceFirst r8 "mm".data (pad2 (natStr date.getMinutes))

/-! ## Slide variables and code blocks (`slide-generator.ts`) -/

/-- `SlideGenerator.getFileName`: `path.split('/').pop() ?? path`. -/
def getFileName (path : Str) : Str := ((splitOnC '/' path).getLast?).getD path

/-- `SlideGenerator.getCommitVariables`. -/
def getCommitVariables (opts : SlideFormatOptions) (commit : GitCommit) : Vars :=
  let tb := parseCommitMessage commit.message
  let ne : Str × Str :=
    match parseAuthorMatch commit.author with
    | some (n, e) => (jsTrim n, jsTrim e)
    | none => (commit.author, [])
  [("authorName".data, ne.1), ("authorEmail".data, ne.2),
   ("commitDate".data, formatDateWithFormat opts commit.date),
   ("messageTitle".data, tb.1), ("messageBody".data, tb.2),
   ("commitHash".data, commit.hash), ("commitHashShort".data, commit.hashShort)]

/-- `SlideGenerator.getFileVariables`. -/
def getFileVariables (diff : GitFileDiff) (allDiffs : List GitFileDiff) : Vars :=
  let fileName := getFileName diff.path
  let fileSummary : Str :=
    if allDiffs.length > 1 then
      let otherFiles :=
        ((allDiffs.filter (fun d => decide (d.path ≠ diff.path))).map
          (fun d => getFileName d.path)).take 5
      if !otherFiles.isEmpty then
        let moreCount : Int := (allDiffs.length : Int) - 1 - otherFiles.length
        "Also changed: ".data ++ List.intercalate ", ".data otherFiles ++
          (if moreCount > 0 then
            " and ".data ++ intStr moreCount ++ " more".data
          else [])
      else []
    else []
  [("authorName".data, []), ("authorEmail".data, []), ("commitDate".data, []),
   ("messageTitle".data, []), ("messageBody".data, []),
   ("commitHash".data, []), ("commitHashShort".data, []),
   ("fileName".data, fileName), ("filePath".data, diff.path),
   ("fileSummary".data, fileSummary)]

/-- The `includeRemoved` computed by the generator:
`this.options.lineChangeDisplay !== 'additions-only'`. -/
def includeRemovedOf (opts : SlideFormatOptions) : Bool :=
  match opts.lineChangeDisplay with
  | .additionsOnly => false
  | .fullDiff => true

/-- JavaScript truthiness of `diff.newContent` (`string | null`). -/
def newContentTruthy (d : GitFileDiff) : Bool :=
  match d.newContent with
  | some c => !c.isEmpty
  | none => false

/-- The per-line scan of `SlideGenerator.calculateDiffHighlights` inside one
hunk: returns the recomputed positions of `added` lines and the final value
of `currentLine`. -/
def calcLines : List DiffLine → Bool → Int → List Int × Int
  | [], _, cur => ([], cur)
  | l :: rest, inc, cur =>
    if keepLine inc l then
      let p := calcLines rest inc (cur + 1)
      ((if l.type = LineType.added then cur :: p.1 else p.1), p.2)
    else calcLines rest inc cur

/-- The hunk loop of `calculateDiffHighlights`: `currentLine` additionally
advances by one over the `// ...` separator between consecutive hunks. -/
def calcHunks : List DiffHunk → Bool → Int → List Int
  | [], _, _ => []
  | [h], inc, cur => (calcLines h.lines inc cur).1
  | h :: h2 :: rest, inc, cur =>
    (calcLines h.lines inc cur).1 ++
      calcHunks (h2 :: rest) inc ((calcLines h.lines inc cur).2 + 1)

/-- The class-private `SlideGenerator.compressToRanges`, a verbatim copy of
the module-level `compressToRanges`; modelled by delegation. -/
def compressToRangesSG (lineNumbers : List Int) : List Str :=
  compressToRanges lineNumbers

/-- `SlideGenerator.calculateDiffHighlights`. -/
def calculateDiffHighlights (opts : SlideFormatOptions) (diff : GitFileDiff)
    (includeRemoved : Bool) : Str :=
  let addedLineNumbers := calcHunks diff.hunks includeRemoved 1
  if addedLineNumbers = [] then []
  else
    List.intercalate (modeSep opts.highlightMode)
      (compressToRangesSG addedLineNumbers)

/-- The ` [${highlights}]` suffix, empty for empty highlights. -/
def hlSpec (highlights : Str) : Str :=
  if highlights = [] then [] else ' ' :: '[' :: (highlights ++ [']'])

/-- `SlideGenerator.generateCodeBlock`. -/
def generateCodeBlock (opts : SlideFormatOptions) (diff : GitFileDiff) : Str :=
  let ch : Str × Str :=
    if opts.showFullFile && newContentTruthy diff then
      (deindent (diff.newContent.getD []),
       if opts.highlightAddedLines && !diff.hunks.isEmpty then
         generateHighlightString diff.hunks opts.highlightMode
       else [])
    else
      (formatDiffContent diff.hunks (includeRemovedOf opts),
       if opts.highlightAddedLines && !diff.hunks.isEmpty then
         calculateDiffHighlights opts diff (includeRemovedOf opts)
       else [])
  createSafeCodeBlock ch.1 (diff.language ++ hlSpec ch.2)

/-! ## Flat-mode slide assembly (`slide-generator.ts`) -/

def DEFAULT_COMMIT_DETAILS_TEMPLATE : Str :=
  "> **\x7b\x7bmessageTitle\x7d\x7d**\n\n\x7b\x7bmessageBody\x7d\x7d\n\n*\x7b\x7bauthorName\x7d\x7d • \x7b\x7bcommitDate\x7d\x7d*".data

def DEFAULT_SLIDE_TEMPLATE : Str :=
  "## \x7b\x7bfileName\x7d\x7d\n\n\x7b\x7bcommitDetails\x7d\x7d\n\n\x7b\x7bcode\x7d\x7d".data

def DEFAULT_COMMIT_ONLY_TEMPLATE : Str :=
  "## \x7b\x7bmessageTitle\x7d\x7d\n\n\x7b\x7bmessageBody\x7d\x7d\n\n*\x7b\x7bauthorName\x7d\x7d <\x7b\x7bauthorEmail\x7d\x7d> • \x7b\x7bcommitDate\x7d\x7d • \x7b\x7bcommitHashShort\x7d\x7d*".data

/-- `createDefaultFormatOptions` from `slide-generator.ts`. -/
def createDefaultFormatOptions : SlideFormatOptions :=
  { showLineNumbers := true
    highlightAddedLines := true
    highlightMode := .stepped
    lineChangeDisplay := .additionsOnly
    includeCommitMessage := true
    includeFileSummary := true
    includeAuthorDate := true
    showFullFile := false
    contextLines := 3
    slideOrganization := .flat
    slideTitle := .both
    commitDetailsTemplate := DEFAULT_COMMIT_DETAILS_TEMPLATE
    slideTemplate := DEFAULT_SLIDE_TEMPLATE
    dateFormat := "MMM d, yyyy".data }

/-- `SlideGenerator.formatSlide`. -/
def formatSlide (slide : GeneratedSlide) : Str :=
  match slide.notes with
  | some n => slide.content ++ "\n\nnote: ".data ++ n
  | none => slide.content

/-- `SlideGenerator.generateCommitOnlySlide`: always renders the built-in
`DEFAULT_COMMIT_ONLY_TEMPLATE`. -/
def generateCommitOnlySlide (opts : SlideFormatOptions) (commit : GitCommit) :
    GeneratedSlide :=
  let vars := getCommitVariables opts commit
  { title := (varLookup vars "messageTitle".data).getD []
    content := renderTemplate DEFAULT_COMMIT_ONLY_TEMPLATE vars
    notes := none }

/-- `SlideGenerator.generateFileSlide`.  The slide variables are the
object-spread `{...commitVars, ...fileVars, code, commitDetails}`. -/
def generateFileSlide (opts : SlideFormatOptions) (commit : GitCommit)
    (diff : GitFileDiff) (allDiffs : List GitFileDiff) : GeneratedSlide :=
  let commitVars := getCommitVariables opts commit
  let fileVars := getFileVariables diff allDiffs
  let codeBlock := generateCodeBlock opts diff
  let commitDetails := renderTemplate opts.commitDetailsTemplate commitVars
  let slideVars : Vars :=
    commitVars ++ fileVars ++
      [("code".data, codeBlock), ("commitDetails".data, commitDetails)]
  { title := (varLookup fileVars "fileName".data).getD diff.path
    content := renderTemplate opts.slideTemplate slideVars
    notes := none }

/-- The `Map<string, GitFileDiff[]>` of the generator, as an association
list with unique keys. -/
abbrev FileDiffMap := List (Str × List GitFileDiff)

/-- `fileDiffs.get(commit.hash)`. -/
def mapGet (m : FileDiffMap) (k : Str) : Option (List GitFileDiff) :=
  (m.find? (fun p => decide (p.1 = k))).map Prod.snd

/-- The `slides` array accumulated by `generateFlatSlides`' commit loop. -/
def flatSlideList (opts : SlideFormatOptions) (commits : List GitCommit)
    (fileDiffs : FileDiffMap) : List GeneratedSlide :=
  commits.foldl
    (fun slides commit =>
      let diffs := (mapGet fileDiffs commit.hash).getD []
      slides ++
        (if diffs.isEmpty then [generateCommitOnlySlide opts commit]
         else diffs.map (fun d => generateFileSlide opts commit d diffs)))
    []

/-- `SlideGenerator.generateFlatSlides`. -/
def generateFlatSlides (opts : SlideFormatOptions) (commits : List GitCommit)
    (fileDiffs : FileDiffMap) : Str :=
  List.intercalate "\n\n---\n\n".data
    ((flatSlideList opts commits fileDiffs).map formatSlide)

/-! ## Companion definitions used by the theorem statements -/

/-- The kept lines of one hunk under `formatDiffContent`'s filter, paired
with their classification (used to state the highlight-recomputation
correspondence). -/
def taggedHunkLines (h : DiffHunk) (inc : Bool) : List (LineType × Str) :=
  (h.lines.filter (keepLine inc)).map (fun l => (l.type, l.content))

/-- The full emitted-line sequence of `formatDiffContent`, each line paired
with its classification; the synthetic `// ...` separator between
consecutive hunks is one `context`-tagged line. -/
def taggedEmit : List DiffHunk → Bool → List (LineType × Str)
  | [], _ => []
  | [h], inc => taggedHunkLines h inc
  | h :: h2 :: rest, inc =>
    taggedHunkLines h inc ++
      (LineType.context, "// ...".data) :: taggedEmit (h2 :: rest) inc

/-- The positions (starting at `i`) of the `added`-tagged entries of an
emitted-line sequence. -/
def addedPositions : List (LineType × Str) → Int → List Int
  | [], _ => []
  | (t, _) :: rest, i =>
    if t = LineType.added then i :: addedPositions rest (i + 1)
    else addedPositions rest (i + 1)

/-- `rangesLoop` with the tokens kept as `(start, end)` pairs (used to state
what the range tokens denote). -/
def runsGo : List Int → Int → Int → List (Int × Int)
  | [], s, e => [(s, e)]
  | c :: rest, s, e =>
    if c = e + 1 then runsGo rest s c else (s, e) :: runsGo rest c c

/-- The maximal-run decomposition underlying `compressToRanges`. -/
def runsOf : List Int → List (Int × Int)
  | [] => []
  | x :: rest => runsGo rest x x

/-- The integer interval `[s, e]` as a list (`[]` when `e < s`). -/
def rangePts (s e : Int) : List Int :=
  (List.range (e + 1 - s).toNat).map (fun (i : Nat) => s + (i : Int))

/-- Index of the first `'\n'` in a list, if any. -/
def firstNlIdx : Str → Option Nat
  | [] => none
  | c :: rest =>
    if c = '\n' then some 0 else (firstNlIdx rest).map (· + 1)

/-- Modelled from the amended claim C4: tier (a) applies only when the
message's non-empty first line is immediately followed by a whitespace-only
line terminated by a newline, and the body is then the trimmed remainder
after the first such blank line; tier (b) splits at the first newline;
tiers (c)/(d) are the long-single-line rules unchanged from the claim. -/
def parseCommitMessageSpec (message : Str) : Str × Str :=
  if message = [] then ([], [])
  else
    let L1 := message.takeWhile (fun c => c ≠ '\n')
    if L1.length < message.length then
      let rest := message.drop (L1.length + 1)
      match firstNlIdx (rest.takeWhile jsWS) with
      | some j =>
        if L1 = [] then (jsTrim L1, jsTrim rest)
        else (jsTrim L1, jsTrim (rest.drop (j + 1)))
      | none => (jsTrim L1, jsTrim rest)
    else if message.length > 72 then
      match firstSubIdx message ". ".data with
      | some p =>
        if p < 100 then
          (jsTrim (message.take (p + 1)), jsTrim (message.drop (p + 2)))
        else (jsTrim message, [])
      | none => (jsTrim message, [])
    else (jsTrim message, [])

/-- Modelled from the amended claim C8: the minimum leading-whitespace
length over the non-blank lines only (stated via `List.min?`), stripped
from every line; no-op when the minimum is zero or undefined. -/
def deindentSpec (text : Str) : Str :=
  let lines := splitOnNl text
  match ((lines.filter (fun l => !isBlankLine l)).map leadingWS).min? with
  | none => text
  | some 0 => text
  | some k => nlJoin (lines.map (List.drop k))

/-- Longest-backtick-run computation stated independently of the regex
model: a single scan carrying the current run length and the best so far. -/
def maxRunSpecGo : Str → Nat → Nat → Nat
  | [], cur, best => max cur best
  | c :: rest, cur, best =>
    if c = '\x60' then maxRunSpecGo rest (cur + 1) best
    else maxRunSpecGo rest 0 (max cur best)

/-- The length of the longest run of backticks in `s` (spec-side). -/
def maxRunSpec (s : Str) : Nat := maxRunSpecGo s 0 0

/-! ## Shared lemmas -/

theorem foldl_append_eq_bind {α β : Type} (f : α → List β) :
    ∀ (l : List α) (init : List β),
      l.foldl (fun acc x => acc ++ f x) init = init ++ l.flatMap f
  | [], init => by simp
  | x :: xs, init => by
    simp only [List.foldl_cons, List.flatMap_cons]
    rw [foldl_append_eq_bind f xs (init ++ f x)]
    simp [List.append_assoc]

/-! ## Claim theorems -/

/-- Claim C1: the claim says full-diff rendering (`includeRemoved` true,
display mode `full-diff`) prefixes kept lines with `"  "`, `"- "` and
`"+ "`.  The code has no prefix logic at all: on the repository's own
full-diff test fixture it emits the raw contents unprefixed, contradicting
the test's expected `"  context"`, `"- removed"`, `"+ added"` lines. -/
theorem c1_formatDiffContent_ignores_display_mode :
    formatDiffContent
        [⟨1, 1, 1, 1, [], [],
          [⟨LineType.context, "context".data, some 1, some 1⟩,
           ⟨LineType.removed, "removed".data, some 2, none⟩,
           ⟨LineType.added, "added".data, none, some 3⟩]⟩] true
      = "context\nremoved\nadded".data ∧
    formatDiffContent
        [⟨1, 1, 1, 1, [], [],
          [⟨LineType.context, "context".data, some 1, some 1⟩,
           ⟨LineType.removed, "removed".data, some 2, none⟩,
           ⟨LineType.added, "added".data, none, some 3⟩]⟩] true
      ≠ "  context\n- removed\n+ added".data := by
  constructor
  · decide
  · decide

/-- Claim C2: inside an open hunk, a non-metadata line starting `'+'` is
recorded as `added` with the prefix stripped and the current post-image
number, incrementing only the post-counter; `'-'` symmetrically with the
pre-image number; a leading space or an empty line is `context`, assigned
both numbers, incrementing both counters; and the quoted one-hunk diff
parses to `oldStart 1`, `newStart 1`, `addedLineNumbers [2]`,
`removedLineNumbers []` and 4 lines. -/
theorem c2_parseDiffHunks_line_classification :
    (∀ (st : ParseState) (h : DiffHunk) (line : Str),
      st.currentHunk = some h →
      matchHunkHeader line = none →
      isMetaLine line = false →
      line.head? = some '+' →
      processDiffLine st line =
        { st with
          currentHunk := some { h with
            addedLineNumbers := h.addedLineNumbers ++ [st.newLineNum],
            lines := h.lines ++
              [⟨LineType.added, line.drop 1, none, some st.newLineNum⟩] },
          newLineNum := st.newLineNum + 1 }) ∧
    (∀ (st : ParseState) (h : DiffHunk) (line : Str),
      st.currentHunk = some h →
      matchHunkHeader line = none →
      isMetaLine line = false →
      line.head? = some '-' →
      processDiffLine st line =
        { st with
          currentHunk := some { h with
            removedLineNumbers := h.removedLineNumbers ++ [st.oldLineNum],
            lines := h.lines ++
              [⟨LineType.removed, line.drop 1, some st.oldLineNum, none⟩] },
          oldLineNum := st.oldLineNum + 1 }) ∧
    (∀ (st : ParseState) (h : DiffHunk) (line : Str),
      st.currentHunk = some h →
      matchHunkHeader line = none →
      isMetaLine line = false →
      (line.head? = some ' ' ∨ line = []) →
      processDiffLine st line =
        { st with
          currentHunk := some { h with
            lines := h.lines ++
              [⟨LineType.context,
                if line.head? = some ' ' then line.drop 1 else line,
                some st.oldLineNum, some st.newLineNum⟩] },
          oldLineNum := st.oldLineNum + 1,
          newLineNum := st.newLineNum + 1 }) ∧
    ((parseDiffHunks
        "@@ -1,3 +1,4 @@\n const a = 1;\n+const b = 2;\n const c = 3;\n const d = 4;".data).map
      (fun h => (h.oldStart, h.newStart, h.addedLineNumbers,
                 h.removedLineNumbers, h.lines.length))
      = [(1, 1, [2], [], 4)]) := by
  refine ⟨?_, ?_, ?_, by decide⟩
  · intro st h line hcur hhdr hmeta hplus
    simp [processDiffLine, hcur, hhdr, hmeta, hplus]
  · intro st h line hcur hhdr hmeta hminus
    simp [processDiffLine, hcur, hhdr, hmeta, hminus]
  · intro st h line hcur hhdr hmeta hctx
    rcases hctx with hsp | hnil
    · simp [processDiffLine, hcur, hhdr, hmeta, hsp]
    · subst hnil
      simp [processDiffLine, hcur, hhdr, hmeta]

/-- Witness for C2: the `'+'` rule applied at a concrete state and line. -/
theorem c2_parseDiffHunks_line_classification_witness :
    processDiffLine ⟨[], some ⟨1, 1, 1, 1, [], [], []⟩, 5, 7⟩ "+x".data
      = ⟨[], some ⟨1, 1, 1, 1, [7], [],
            [⟨LineType.added, "x".data, none, some 7⟩]⟩, 5, 8⟩ :=
  c2_parseDiffHunks_line_classification.1
    ⟨[], some ⟨1, 1, 1, 1, [], [], []⟩, 5, 7⟩ ⟨1, 1, 1, 1, [], [], []⟩
    "+x".data rfl (by decide) (by decide) rfl

/-- Claim C6: `generateHighlightString` flattens all hunks'
`addedLineNumbers` in encounter order, range-compresses the flat sequence,
and joins tokens with `'|'` in `stepped` mode and `','` in `all` mode; two
hunks with added lines `[1,2,3]` and `[7,8]` in stepped mode yield
`"1-3|7-8"`, and without any added line the result is empty. -/
theorem c6_generateHighlightString_flattens :
    (∀ (hunks : List DiffHunk) (mode : HighlightMode),
      generateHighlightString hunks mode =
        (if hunks.flatMap DiffHunk.addedLineNumbers = [] then []
         else List.intercalate (modeSep mode)
           (compressToRanges (hunks.flatMap DiffHunk.addedLineNumbers)))) ∧
    (generateHighlightString
        [⟨1, 1, 1, 1, [1, 2, 3], [], []⟩, ⟨1, 1, 1, 1, [7, 8], [], []⟩]
        HighlightMode.stepped = "1-3|7-8".data) ∧
    (generateHighlightString
        [⟨1, 1, 1, 1, [1, 2, 3], [], []⟩, ⟨1, 1, 1, 1, [7, 8], [], []⟩]
        HighlightMode.all = "1-3,7-8".data) ∧
    (∀ (hunks : List DiffHunk) (mode : HighlightMode),
      (∀ h ∈ hunks, h.addedLineNumbers = []) →
      generateHighlightString hunks mode = []) := by
  have hflat : ∀ (hunks : List DiffHunk) (mode : HighlightMode),
      generateHighlightString hunks mode =
        (if hunks.flatMap DiffHunk.addedLineNumbers = [] then []
         else List.intercalate (modeSep mode)
           (compressToRanges (hunks.flatMap DiffHunk.addedLineNumbers))) := by
    intro hunks mode
    simp only [generateHighlightString,
      foldl_append_eq_bind DiffHunk.addedLineNumbers hunks [],
      List.nil_append]
  refine ⟨hflat, by decide, by decide, ?_⟩
  intro hunks mode hnone
  rw [hflat]
  have : hunks.flatMap DiffHunk.addedLineNumbers = [] := by
    simp only [List.flatMap_eq_nil_iff]
    exact hnone
  simp [this]

/-- Witness for C6: the empty-result rule applied to a concrete hunk list
with no added lines. -/
theorem c6_generateHighlightString_flattens_witness :
    generateHighlightString [⟨1, 1, 1, 1, [], [], []⟩] HighlightMode.stepped
      = [] :=
  c6_generateHighlightString_flattens.2.2.2
    [⟨1, 1, 1, 1, [], [], []⟩] HighlightMode.stepped (by decide)

/-- Claim C10: a template line that is exactly one `{{name}}` placeholder is
replaced by the variable's trimmed value when that trims non-empty, and by
the empty string when the variable is absent or trims to empty (a missing
variable is total, never an error); in particular
`renderTemplate("A\n{{x}}\nB", {})` is exactly `"A\n\nB"`. -/
theorem c10_renderTemplate_missing_variable :
    (∀ (vars : Vars) (line name : Str),
      matchFullPlaceholder line = some name →
      ((∃ v, varLookup vars name = some v ∧ jsTrim v ≠ [] ∧
          pass1Line vars line = jsTrim v) ∨
        pass1Line vars line = [])) ∧
    renderTemplate "A\n\x7b\x7bx\x7d\x7d\nB".data [] = "A\n\nB".data ∧
    renderTemplate "A\n\x7b\x7bx\x7d\x7d\nB".data [("x".data, " v ".data)]
      = "A\nv\nB".data := by
  refine ⟨?_, by decide, by decide⟩
  intro vars line name hmatch
  cases hv : varLookup vars name with
  | none => exact Or.inr (by simp [pass1Line, hmatch, hv])
  | some v =>
    by_cases hne : jsTrim v = []
    · exact Or.inr (by simp [pass1Line, hmatch, hv, hne])
    · exact Or.inl ⟨v, rfl, hne, by simp [pass1Line, hmatch, hv]⟩

/-- Witness for C10: the lone-placeholder rule applied to the line
`"{{x}}"` with an empty variable map. -/
theorem c10_renderTemplate_missing_variable_witness :
    (∃ v, varLookup [] "x".data = some v ∧ jsTrim v ≠ [] ∧
        pass1Line [] "\x7b\x7bx\x7d\x7d".data = jsTrim v) ∨
      pass1Line [] "\x7b\x7bx\x7d\x7d".data = [] :=
  c10_renderTemplate_missing_variable.1 [] "\x7b\x7bx\x7d\x7d".data "x".data
    (by decide)

/-! ## Lemmas for C9 (`createSafeCodeBlock`) -/

theorem backtickRunsGo_foldl_max :
    ∀ (s : Str) (k b : Nat),
      (backtickRunsGo s k).foldl max b = maxRunSpecGo s k b
  | [], k, b => by
    by_cases hk : k = 0
    · simp [backtickRunsGo, maxRunSpecGo, hk]
    · simp [backtickRunsGo, maxRunSpecGo, hk, Nat.max_comm]
  | c :: rest, k, b => by
    simp only [backtickRunsGo, maxRunSpecGo]
    by_cases hc : c = '\x60'
    · rw [if_pos hc, if_pos hc]
      exact backtickRunsGo_foldl_max rest (k + 1) b
    · rw [if_neg hc, if_neg hc]
      by_cases hk : k = 0
      · rw [if_pos hk]
        subst hk
        simp only [List.nil_append, Nat.zero_max]
        exact backtickRunsGo_foldl_max rest 0 b
      · rw [if_neg hk]
        simp only [List.cons_append, List.nil_append, List.foldl_cons]
        rw [backtickRunsGo_foldl_max rest 0 (max b k), Nat.max_comm b k]

theorem maxBacktickRun_eq_spec (s : Str) : maxBacktickRun s = maxRunSpec s :=
  backtickRunsGo_foldl_max s 0 0

theorem maxRunSpecGo_ge :
    ∀ (s : Str) (cur best : Nat), max cur best ≤ maxRunSpecGo s cur best
  | [], cur, best => Nat.le_refl _
  | c :: rest, cur, best => by
    by_cases hc : c = '\x60'
    · simp only [maxRunSpecGo, if_pos hc]
      calc max cur best ≤ max (cur + 1) best := by omega
        _ ≤ maxRunSpecGo rest (cur + 1) best := maxRunSpecGo_ge rest _ _
    · simp only [maxRunSpecGo, if_neg hc]
      calc max cur best ≤ max 0 (max cur best) := by omega
        _ ≤ maxRunSpecGo rest 0 (max cur best) := maxRunSpecGo_ge rest _ _

theorem maxRunSpecGo_append_le :
    ∀ (l m : Str) (cur best : Nat),
      maxRunSpecGo l cur best ≤ maxRunSpecGo (l ++ m) cur best
  | [], m, cur, best => maxRunSpecGo_ge m cur best
  | c :: l', m, cur, best => by
    by_cases hc : c = '\x60'
    · simp only [List.cons_append, maxRunSpecGo, if_pos hc]
      exact maxRunSpecGo_append_le l' m (cur + 1) best
    · simp only [List.cons_append, maxRunSpecGo, if_neg hc]
      exact maxRunSpecGo_append_le l' m 0 (max cur best)

theorem jsTrimEnd_append_ws (s : Str) :
    s = jsTrimEnd s ++ (s.reverse.takeWhile jsWS).reverse := by
  unfold jsTrimEnd
  rw [← List.reverse_append, List.takeWhile_append_dropWhile, List.reverse_reverse]

theorem maxRunSpec_trimEnd_le (s : Str) :
    maxRunSpec (jsTrimEnd s) ≤ maxRunSpec s := by
  conv_rhs => rw [jsTrimEnd_append_ws s]
  exact maxRunSpecGo_append_le (jsTrimEnd s) _ 0 0

/-- Claim C9: `createSafeCodeBlock` wraps the trailing-trimmed content in a
fence of length `max(3, 1 + longest backtick run in the content)`, so the
fence is strictly longer than every backtick run in the emitted body; a
content with a 3-backtick run gets a fence of length 4. -/
theorem c9_createSafeCodeBlock_fence :
    (∀ (content langSpec : Str),
      createSafeCodeBlock content langSpec =
        List.replicate (max 3 (maxBacktickRun content + 1)) '\x60' ++
          langSpec ++ '\n' :: jsTrimEnd content ++
          '\n' :: List.replicate (max 3 (maxBacktickRun content + 1)) '\x60') ∧
    (∀ content : Str, maxBacktickRun content = maxRunSpec content) ∧
    (∀ content : Str,
      maxBacktickRun (jsTrimEnd content) < max 3 (maxBacktickRun content + 1)) ∧
    (createSafeCodeBlock "a ``` b".data "ts".data
      = "````ts\na ``` b\n````".data) := by
  refine ⟨fun content langSpec => rfl, maxBacktickRun_eq_spec, ?_, by decide⟩
  intro content
  have h1 := maxRunSpec_trimEnd_le content
  rw [maxBacktickRun_eq_spec, maxBacktickRun_eq_spec]
  omega

/-! ## Lemmas for C3 (highlight recomputation) -/

theorem addedPositions_append (xs ys : List (LineType × Str)) :
    ∀ i : Int,
      addedPositions (xs ++ ys) i =
        addedPositions xs i ++ addedPositions ys (i + xs.length) := by
  induction xs with
  | nil => intro i; simp [addedPositions]
  | cons hd tl ih =>
    intro i
    obtain ⟨t, c⟩ := hd
    simp only [List.cons_append, addedPositions, List.length_cons,
      List.append_eq]
    have harg : i + 1 + (tl.length : Int) = i + ((tl.length : Int) + 1) := by
      ring
    by_cases ht : t = LineType.added
    · rw [if_pos ht, if_pos ht, ih (i + 1)]
      push_cast
      rw [harg, List.cons_append]
    · rw [if_neg ht, if_neg ht, ih (i + 1)]
      push_cast
      rw [harg]

theorem calcLines_spec :
    ∀ (lines : List DiffLine) (inc : Bool) (cur : Int),
      calcLines lines inc cur =
        (addedPositions
            ((lines.filter (keepLine inc)).map (fun l => (l.type, l.content)))
            cur,
         cur + ((lines.filter (keepLine inc)).length : Int))
  | [], inc, cur => by simp [calcLines, addedPositions]
  | l :: rest, inc, cur => by
    by_cases hk : keepLine inc l
    · simp only [calcLines, if_pos hk, List.filter_cons_of_pos hk,
        List.map_cons, addedPositions, List.length_cons]
      rw [calcLines_spec rest inc (cur + 1)]
      simp only [Prod.mk.injEq]
      constructor
      · trivial
      · push_cast
        ring
    · simp only [calcLines, if_neg hk,
        List.filter_cons_of_neg (by simpa using hk)]
      exact calcLines_spec rest inc cur

theorem calcHunks_spec :
    ∀ (hunks : List DiffHunk) (inc : Bool) (cur : Int),
      calcHunks hunks inc cur = addedPositions (taggedEmit hunks inc) cur
  | [], _, _ => rfl
  | [h], inc, cur => by
    simp only [calcHunks, taggedEmit, taggedHunkLines, calcLines_spec]
  | h :: h2 :: rest, inc, cur => by
    simp only [calcHunks, taggedEmit, calcLines_spec]
    rw [calcHunks_spec (h2 :: rest) inc _, addedPositions_append]
    simp [taggedHunkLines, addedPositions]

theorem formatDiffContentLines_eq_tagged :
    ∀ (hunks : List DiffHunk) (inc : Bool),
      formatDiffContentLines hunks inc = (taggedEmit hunks inc).map Prod.snd
  | [], _ => rfl
  | [h], inc => by
    simp [formatDiffContentLines, taggedEmit, taggedHunkLines, List.map_map]
  | h :: h2 :: rest, inc => by
    simp only [formatDiffContentLines, taggedEmit, List.map_append,
      List.map_cons]
    rw [formatDiffContentLines_eq_tagged (h2 :: rest) inc]
    simp [taggedHunkLines, List.map_map]

/-- Claim C3: when code is rendered as extracted diff (`showFullFile`
false) with highlighting of added lines enabled, `generateCodeBlock`
annotates the fence with `calculateDiffHighlights`, whose collected numbers
are exactly the 1-based positions of `added` lines in `formatDiffContent`'s
emitted line sequence (removed lines skipped when excluded, each `// ...`
separator counting as one emitted line) — not the hunks' native
`addedLineNumbers`, from which they differ on a hunk whose post-image
numbering starts above 1. -/
theorem c3_diff_highlights_replay_emission :
    (∀ (hunks : List DiffHunk) (inc : Bool),
      calcHunks hunks inc 1 = addedPositions (taggedEmit hunks inc) 1) ∧
    (∀ (hunks : List DiffHunk) (inc : Bool),
      formatDiffContentLines hunks inc = (taggedEmit hunks inc).map Prod.snd) ∧
    (∀ (opts : SlideFormatOptions) (diff : GitFileDiff),
      opts.showFullFile = false →
      opts.highlightAddedLines = true →
      generateCodeBlock opts diff =
        createSafeCodeBlock
          (formatDiffContent diff.hunks (includeRemovedOf opts))
          (diff.language ++
            hlSpec (calculateDiffHighlights opts diff (includeRemovedOf opts)))) ∧
    (calculateDiffHighlights createDefaultFormatOptions
        ⟨"f".data,
         [⟨5, 2, 5, 2, [5], [5],
           [⟨LineType.removed, "r".data, some 5, none⟩,
            ⟨LineType.added, "a".data, none, some 5⟩,
            ⟨LineType.context, "c".data, some 6, some 6⟩]⟩],
         none, "ts".data⟩ false = "1".data ∧
      generateHighlightString
        [⟨5, 2, 5, 2, [5], [5],
          [⟨LineType.removed, "r".data, some 5, none⟩,
           ⟨LineType.added, "a".data, none, some 5⟩,
           ⟨LineType.context, "c".data, some 6, some 6⟩]⟩]
        HighlightMode.stepped = "5".data) := by
  refine ⟨fun hunks inc => calcHunks_spec hunks inc 1,
    formatDiffContentLines_eq_tagged, ?_, by decide, by decide⟩
  intro opts diff hfull hhl
  unfold generateCodeBlock
  rw [hfull, hhl]
  simp only [Bool.false_and, if_false, Bool.true_and]
  cases hnl : diff.hunks with
  | nil =>
    simp [calculateDiffHighlights, calcHunks, hnl, hlSpec]
  | cons a l =>
    simp [hnl]

/-- Witness for C3: the extracted-diff branch of `generateCodeBlock`
instantiated at the default options and a one-hunk diff. -/
theorem c3_diff_highlights_replay_emission_witness :
    generateCodeBlock createDefaultFormatOptions
        ⟨"f".data,
         [⟨5, 2, 5, 2, [5], [5],
           [⟨LineType.removed, "r".data, some 5, none⟩,
            ⟨LineType.added, "a".data, none, some 5⟩,
            ⟨LineType.context, "c".data, some 6, some 6⟩]⟩],
         none, "ts".data⟩ =
      createSafeCodeBlock
        (formatDiffContent
          (GitFileDiff.hunks
            ⟨"f".data,
             [⟨5, 2, 5, 2, [5], [5],
               [⟨LineType.removed, "r".data, some 5, none⟩,
                ⟨LineType.added, "a".data, none, some 5⟩,
                ⟨LineType.context, "c".data, some 6, some 6⟩]⟩],
             none, "ts".data⟩)
          (includeRemovedOf createDefaultFormatOptions))
        ("ts".data ++
          hlSpec (calculateDiffHighlights createDefaultFormatOptions
            ⟨"f".data,
             [⟨5, 2, 5, 2, [5], [5],
               [⟨LineType.removed, "r".data, some 5, none⟩,
                ⟨LineType.added, "a".data, none, some 5⟩,
                ⟨LineType.context, "c".data, some 6, some 6⟩]⟩],
             none, "ts".data⟩ (includeRemovedOf createDefaultFormatOptions))) :=
  c3_diff_highlights_replay_emission.2.2.1 createDefaultFormatOptions
    ⟨"f".data,
     [⟨5, 2, 5, 2, [5], [5],
       [⟨LineType.removed, "r".data, some 5, none⟩,
        ⟨LineType.added, "a".data, none, some 5⟩,
        ⟨LineType.context, "c".data, some 6, some 6⟩]⟩],
     none, "ts".data⟩ rfl rfl

/-! ## Lemmas for C7 (`compressToRanges`) -/

theorem sortInts_sorted (l : List Int) :
    (sortInts l).Sorted (· ≤ ·) :=
  List.sorted_insertionSort (· ≤ ·) l

theorem sortInts_perm (l : List Int) : (sortInts l).Perm l :=
  List.perm_insertionSort (· ≤ ·) l

theorem sortInts_eq_of_perm {l₁ l₂ : List Int} (h : l₁.Perm l₂) :
    sortInts l₁ = sortInts l₂ :=
  List.eq_of_perm_of_sorted
    ((sortInts_perm l₁).trans (h.trans (sortInts_perm l₂).symm))
    (sortInts_sorted l₁) (sortInts_sorted l₂)

theorem rangesLoop_eq_runsGo :
    ∀ (rest : List Int) (s e : Int),
      rangesLoop rest s e = (runsGo rest s e).map (fun p => rangeToken p.1 p.2)
  | [], s, e => rfl
  | c :: rest, s, e => by
    by_cases hc : c = e + 1
    · simp only [rangesLoop, runsGo, if_pos hc]
      exact rangesLoop_eq_runsGo rest s c
    · simp only [rangesLoop, runsGo, if_neg hc, List.map_cons]
      rw [rangesLoop_eq_runsGo rest c c]

theorem compressToRanges_eq_runs (l : List Int) :
    compressToRanges l = (runsOf (sortInts l)).map (fun p => rangeToken p.1 p.2) := by
  unfold compressToRanges runsOf
  cases sortInts l with
  | nil => rfl
  | cons x rest => exact rangesLoop_eq_runsGo rest x x

theorem rangePts_self (s : Int) : rangePts s s = [s] := by
  unfold rangePts
  have h1 : (s + 1 - s).toNat = 1 := by omega
  rw [h1]
  simp [List.range_succ]

theorem rangePts_succ (s e : Int) (h : s ≤ e + 1) :
    rangePts s (e + 1) = rangePts s e ++ [e + 1] := by
  unfold rangePts
  have h1 : (e + 1 + 1 - s).toNat = (e + 1 - s).toNat + 1 := by omega
  rw [h1, List.range_succ, List.map_append]
  simp only [List.map_cons, List.map_nil]
  have h2 : s + ((e + 1 - s).toNat : Int) = e + 1 := by omega
  rw [h2]

theorem runsGo_flat :
    ∀ (rest : List Int) (s e : Int), s ≤ e →
      (runsGo rest s e).flatMap (fun p => rangePts p.1 p.2) = rangePts s e ++ rest
  | [], s, e, _ => by simp [runsGo]
  | c :: rest, s, e, hse => by
    by_cases hc : c = e + 1
    · simp only [runsGo, if_pos hc]
      rw [runsGo_flat rest s c (by omega)]
      subst hc
      rw [rangePts_succ s e (by omega)]
      simp
    · simp only [runsGo, if_neg hc, List.flatMap_cons]
      rw [runsGo_flat rest c c (le_refl c), rangePts_self]
      simp

theorem runsOf_flat (l : List Int) :
    (runsOf l).flatMap (fun p => rangePts p.1 p.2) = l := by
  cases l with
  | nil => rfl
  | cons x rest =>
    simp only [runsOf]
    rw [runsGo_flat rest x x (le_refl x), rangePts_self]
    rfl

theorem runsGo_head_fst :
    ∀ (rest : List Int) (s e : Int),
      (runsGo rest s e).head?.map Prod.fst = some s
  | [], s, e => rfl
  | c :: rest, s, e => by
    by_cases hc : c = e + 1
    · simp only [runsGo, if_pos hc]
      exact runsGo_head_fst rest s c
    · simp only [runsGo, if_neg hc]
      rfl

theorem runsGo_chain :
    ∀ (rest : List Int) (s e : Int),
      List.Chain' (· < ·) (e :: rest) →
      List.Chain' (fun p q : Int × Int => p.2 + 1 < q.1) (runsGo rest s e)
  | [], s, e, _ => List.chain'_singleton _
  | c :: rest, s, e, hch => by
    have hec : e < c := (List.chain'_cons.mp hch).1
    have hch' : List.Chain' (· < ·) (c :: rest) := (List.chain'_cons.mp hch).2
    by_cases hc : c = e + 1
    · simp only [runsGo, if_pos hc]
      exact runsGo_chain rest s c (hc ▸ hch')
    · simp only [runsGo, if_neg hc]
      rw [List.chain'_cons']
      refine ⟨?_, runsGo_chain rest c c hch'⟩
      intro y hy
      have hf := runsGo_head_fst rest c c
      cases hhd : (runsGo rest c c).head? with
      | none => rw [hhd] at hy; cases hy
      | some z =>
        rw [hhd] at hy hf
        cases hy
        have hz : y.1 = c := by simpa using hf
        simp only [hz]
        omega

theorem runsGo_mem_le :
    ∀ (rest : List Int) (s e : Int), s ≤ e →
      ∀ p : Int × Int, p ∈ runsGo rest s e → p.1 ≤ p.2
  | [], s, e, hse, p, hp => by
    simp only [runsGo, List.mem_singleton] at hp
    subst hp; exact hse
  | c :: rest, s, e, hse, p, hp => by
    by_cases hc : c = e + 1
    · simp only [runsGo, if_pos hc] at hp
      exact runsGo_mem_le rest s c (by omega) p hp
    · simp only [runsGo, if_neg hc, List.mem_cons] at hp
      rcases hp with hp | hp
      · subst hp; exact hse
      · exact runsGo_mem_le rest c c (le_refl c) p hp

theorem runsOf_mem_le (l : List Int) (p : Int × Int) (hp : p ∈ runsOf l) :
    p.1 ≤ p.2 := by
  cases l with
  | nil => cases hp
  | cons x rest => exact runsGo_mem_le rest x x (le_refl x) p hp

theorem sortInts_chain_lt (l : List Int) (hnd : l.Nodup) :
    List.Chain' (· < ·) (sortInts l) := by
  have hsorted : (sortInts l).Sorted (· < ·) :=
    (sortInts_sorted l).lt_of_le ((sortInts_perm l).nodup_iff.mpr hnd)
  exact List.chain'_iff_pairwise.mpr hsorted

/-- Claim C7: `compressToRanges` is permutation-invariant (any ordering of
the same distinct integers yields the same token sequence); its tokens are
the renderings of the run decomposition of the sorted input, where each run
`(s, e)` has `s ≤ e`, the runs jointly enumerate exactly the input values in
consecutive-integer blocks, and for distinct inputs adjacent runs are
separated by a genuine gap (so each run is maximal); `[5,1,3,2,4]` yields
`["1-5"]` and the empty input yields `[]`. -/
theorem c7_compressToRanges_canonical :
    (∀ l₁ l₂ : List Int, l₁.Perm l₂ →
      compressToRanges l₁ = compressToRanges l₂) ∧
    (∀ l : List Int, compressToRanges l =
      (runsOf (sortInts l)).map (fun p => rangeToken p.1 p.2)) ∧
    (∀ l : List Int,
      (runsOf (sortInts l)).flatMap (fun p => rangePts p.1 p.2) = sortInts l) ∧
    (∀ l : List Int, (sortInts l).Perm l) ∧
    (∀ l : List Int, l.Nodup →
      List.Chain' (fun p q : Int × Int => p.2 + 1 < q.1) (runsOf (sortInts l))) ∧
    (∀ (l : List Int) (p : Int × Int), p ∈ runsOf l → p.1 ≤ p.2) ∧
    compressToRanges [5, 1, 3, 2, 4] = ["1-5".data] ∧
    compressToRanges ([] : List Int) = [] := by
  refine ⟨?_, compressToRanges_eq_runs, fun l => runsOf_flat (sortInts l),
    sortInts_perm, ?_, runsOf_mem_le, by decide, rfl⟩
  · intro l₁ l₂ h
    unfold compressToRanges
    rw [sortInts_eq_of_perm h]
  · intro l hnd
    have hch := sortInts_chain_lt l hnd
    cases hs : sortInts l with
    | nil => exact List.chain'_nil
    | cons x rest =>
      rw [hs] at hch
      exact runsGo_chain rest x x hch

/-- Witness for C7: permutation invariance and run maximality applied at
concrete inputs. -/
theorem c7_compressToRanges_canonical_witness :
    compressToRanges [2, 1] = compressToRanges [1, 2] ∧
    List.Chain' (fun p q : Int × Int => p.2 + 1 < q.1)
      (runsOf (sortInts [5, 1, 9])) :=
  ⟨c7_compressToRanges_canonical.1 [2, 1] [1, 2] (List.Perm.swap 1 2 []),
   c7_compressToRanges_canonical.2.2.2.2.1 [5, 1, 9] (by decide)⟩

/-! ## Lemmas for C8 (`deindent`) -/

theorem filter_nonblank_cons_blank (l : Str) (ls : List Str)
    (hb : isBlankLine l = true) :
    (l :: ls).filter (fun x => !isBlankLine x) =
      ls.filter (fun x => !isBlankLine x) := by
  simp [List.filter_cons, hb]

theorem filter_nonblank_cons_nonblank (l : Str) (ls : List Str)
    (hb : isBlankLine l = false) :
    (l :: ls).filter (fun x => !isBlankLine x) =
      l :: ls.filter (fun x => !isBlankLine x) := by
  simp [List.filter_cons, hb]

theorem minIndentScan_foldl_some :
    ∀ (lines : List Str) (a : Nat),
      lines.foldl
        (fun m line =>
          if isBlankLine line then m
          else match m with
            | none => some (leadingWS line)
            | some k =>
              if leadingWS line < k then some (leadingWS line) else some k)
        (some a)
      = some (((lines.filter (fun x => !isBlankLine x)).map leadingWS).foldl min a)
  | [], a => rfl
  | l :: ls, a => by
    by_cases hb : isBlankLine l
    · rw [filter_nonblank_cons_blank l ls hb]
      simp only [List.foldl_cons, if_pos hb]
      exact minIndentScan_foldl_some ls a
    · have hb' : isBlankLine l = false := by simpa using hb
      rw [filter_nonblank_cons_nonblank l ls hb']
      simp only [List.foldl_cons, if_neg hb, List.map_cons]
      have hsome : (if leadingWS l < a then some (leadingWS l) else some a)
          = some (if leadingWS l < a then leadingWS l else a) := by
        split <;> rfl
      rw [hsome, minIndentScan_foldl_some ls]
      have hmin : (if leadingWS l < a then leadingWS l else a)
          = min a (leadingWS l) := by
        split <;> omega
      rw [hmin]

theorem minIndentScan_eq (lines : List Str) :
    minIndentScan lines =
      ((lines.filter (fun x => !isBlankLine x)).map leadingWS).min? := by
  induction lines with
  | nil => rfl
  | cons l ls ih =>
    by_cases hb : isBlankLine l
    · rw [filter_nonblank_cons_blank l ls hb]
      unfold minIndentScan at ih ⊢
      simp only [List.foldl_cons, if_pos hb]
      exact ih
    · have hb' : isBlankLine l = false := by simpa using hb
      rw [filter_nonblank_cons_nonblank l ls hb']
      unfold minIndentScan
      simp only [List.foldl_cons, if_neg hb, List.map_cons]
      rw [minIndentScan_foldl_some ls (leadingWS l)]
      rfl

theorem deindent_eq_spec (text : Str) : deindent text = deindentSpec text := by
  unfold deindent deindentSpec
  simp only [minIndentScan_eq]

/-- Counterexample to claim C8 as stated: the claim says blank lines are
left untouched by the strip, predicting `"a\n  \nb"` for this input, but
`deindent` slices every line, emptying the two-space blank line. -/
theorem c8_counterexample_blank_line_stripped :
    deindent "    a\n  \n    b".data = "a\n\nb".data ∧
    deindent "    a\n  \n    b".data ≠ "a\n  \nb".data := by
  constructor
  · decide
  · decide

/-- Claim C8 (amended): `deindent` computes the minimum leading-whitespace
length over the non-blank lines only, strips exactly that many leading
characters from every line including whitespace-only blank lines (a line
shorter than the minimum becomes empty), and is a no-op when the minimum is
zero or every line is blank. -/
theorem c8_deindent_strips_every_line :
    (∀ text : Str, deindent text = deindentSpec text) ∧
    (∀ text : Str, minIndentScan (splitOnNl text) = some 0 →
      deindent text = text) ∧
    (∀ text : Str, (∀ line ∈ splitOnNl text, isBlankLine line) →
      deindent text = text) ∧
    deindent "    a\n  \n    b".data = "a\n\nb".data := by
  refine ⟨deindent_eq_spec, ?_, ?_, by decide⟩
  · intro text h
    simp only [deindent, h]
  · intro text h
    have hfil : (splitOnNl text).filter (fun x => !isBlankLine x) = [] := by
      rw [List.filter_eq_nil_iff]
      intro l hl
      simp [h l hl]
    simp [deindent, minIndentScan_eq, hfil]

/-- Witness for C8: the two no-op rules applied at concrete texts. -/
theorem c8_deindent_strips_every_line_witness :
    deindent "a\nb".data = "a\nb".data ∧ deindent "\n".data = "\n".data :=
  ⟨c8_deindent_strips_every_line.2.1 "a\nb".data (by decide),
   c8_deindent_strips_every_line.2.2.1 "\n".data (by decide)⟩

/-! ## Lemmas for C4 (`parseCommitMessage`) -/

theorem jsTrim_drop_of_leading_ws :
    ∀ (k : Nat) (s : Str), (∀ c ∈ s.take k, jsWS c = true) →
      jsTrim (s.drop k) = jsTrim s
  | 0, s, _ => rfl
  | _ + 1, [], _ => rfl
  | k + 1, c :: s', h => by
    have hc : jsWS c = true := h c (by simp)
    have htail : ∀ x ∈ s'.take k, jsWS x = true := by
      intro x hx
      exact h x (by simp [hx])
    have hdw : (c :: s').dropWhile jsWS = s'.dropWhile jsWS := by
      simp [List.dropWhile_cons, hc]
    calc jsTrim ((c :: s').drop (k + 1))
        = jsTrim (s'.drop k) := by rw [List.drop_succ_cons]
      _ = jsTrim s' := jsTrim_drop_of_leading_ws k s' htail
      _ = jsTrim (c :: s') := by unfold jsTrim; rw [hdw]

theorem takeWhile_prefix_ws :
    ∀ (s : Str) (n : Nat), n ≤ (s.takeWhile jsWS).length →
      ∀ c ∈ s.take n, jsWS c = true
  | _, 0, _, c, hc => by simp at hc
  | [], _ + 1, _, c, hc => by simp at hc
  | a :: s', n + 1, hn, c, hc => by
    by_cases ha : jsWS a
    · rw [List.take_succ_cons, List.mem_cons] at hc
      rcases hc with rfl | hc
      · exact ha
      · refine takeWhile_prefix_ws s' n ?_ c hc
        rw [List.takeWhile_cons_of_pos ha, List.length_cons] at hn
        omega
    · rw [List.takeWhile_cons_of_neg ha] at hn
      simp at hn

theorem lastNlIdx_lt_length :
    ∀ (l : Str) (j : Nat), lastNlIdx l = some j → j < l.length
  | [], j, h => by simp [lastNlIdx] at h
  | c :: rest, j, h => by
    unfold lastNlIdx at h
    cases hr : lastNlIdx rest with
    | some j' =>
      rw [hr] at h
      have := lastNlIdx_lt_length rest j' hr
      simp only [Option.some.injEq] at h
      simp only [← h, List.length_cons]
      omega
    | none =>
      rw [hr] at h
      by_cases hc : c = '\n'
      · rw [if_pos hc] at h
        simp only [Option.some.injEq] at h
        simp [← h]
      · rw [if_neg hc] at h
        cases h

theorem firstNlIdx_lt_length :
    ∀ (l : Str) (j : Nat), firstNlIdx l = some j → j < l.length
  | [], j, h => by simp [firstNlIdx] at h
  | c :: rest, j, h => by
    unfold firstNlIdx at h
    by_cases hc : c = '\n'
    · rw [if_pos hc] at h
      simp only [Option.some.injEq] at h
      simp [← h]
    · rw [if_neg hc] at h
      cases hr : firstNlIdx rest with
      | none => rw [hr] at h; cases h
      | some j' =>
        rw [hr] at h
        simp only [Option.map_some', Option.some.injEq] at h
        have := firstNlIdx_lt_length rest j' hr
        simp only [← h, List.length_cons]
        omega

theorem firstNlIdx_none_iff_lastNlIdx_none :
    ∀ l : Str, firstNlIdx l = none ↔ lastNlIdx l = none
  | [] => by simp [firstNlIdx, lastNlIdx]
  | c :: rest => by
    have ih := firstNlIdx_none_iff_lastNlIdx_none rest
    unfold firstNlIdx lastNlIdx
    by_cases hc : c = '\n'
    · rw [if_pos hc]
      cases hr : lastNlIdx rest with
      | some j => simp
      | none => rw [if_pos hc]
    · rw [if_neg hc]
      cases hr : lastNlIdx rest with
      | some j =>
        have hfr : firstNlIdx rest ≠ none := by
          intro hnone
          rw [ih.mp hnone] at hr
          cases hr
        obtain ⟨j', hj'⟩ := Option.ne_none_iff_exists'.mp hfr
        rw [hj']
        simp
      | none =>
        rw [if_neg hc, ih.mpr hr]
        simp

theorem emptyLineMatch_eq_some (message t b : Str)
    (h : emptyLineMatch message = some (t, b)) :
    t = message.takeWhile (fun c => c ≠ '\n') ∧
    ∃ j, lastNlIdx ((message.drop (t.length + 1)).takeWhile jsWS) = some j ∧
      b = (message.drop (t.length + 1)).drop (j + 1) := by
  simp only [emptyLineMatch] at h
  by_cases h1 : message.takeWhile (fun c => c ≠ '\n') = []
  · rw [if_pos h1] at h; cases h
  · rw [if_neg h1] at h
    by_cases h2 : (message.takeWhile (fun c => c ≠ '\n')).length = message.length
    · rw [if_pos h2] at h; cases h
    · rw [if_neg h2] at h
      cases hj : lastNlIdx
          ((message.drop ((message.takeWhile (fun c => c ≠ '\n')).length + 1)).takeWhile
            jsWS) with
      | none => rw [hj] at h; cases h
      | some j =>
        rw [hj] at h
        have hpair := Option.some.inj h
        injection hpair with ht hb
        subst ht
        exact ⟨rfl, j, hj, hb.symm⟩

theorem parseCommitMessage_has_nl (message : Str) (h1 : message ≠ [])
    (hL : (message.takeWhile (fun c => c ≠ '\n')).length < message.length) :
    parseCommitMessage message =
      (jsTrim (message.takeWhile (fun c => c ≠ '\n')),
       jsTrim (message.drop
         ((message.takeWhile (fun c => c ≠ '\n')).length + 1))) := by
  simp only [parseCommitMessage]
  rw [if_neg h1]
  split
  next t b hm =>
    obtain ⟨ht, j, hj, hb⟩ := emptyLineMatch_eq_some message t b hm
    subst ht
    subst hb
    have hlt := lastNlIdx_lt_length _ j hj
    have hws : ∀ c ∈ (message.drop
        ((message.takeWhile (fun x => x ≠ '\n')).length + 1)).take (j + 1),
        jsWS c = true := by
      apply takeWhile_prefix_ws
      omega
    rw [jsTrim_drop_of_leading_ws (j + 1) _ hws]
  next hm =>
    rw [if_pos hL]

theorem parseCommitMessageSpec_has_nl (message : Str) (h1 : message ≠ [])
    (hL : (message.takeWhile (fun c => c ≠ '\n')).length < message.length) :
    parseCommitMessageSpec message =
      (jsTrim (message.takeWhile (fun c => c ≠ '\n')),
       jsTrim (message.drop
         ((message.takeWhile (fun c => c ≠ '\n')).length + 1))) := by
  simp only [parseCommitMessageSpec]
  rw [if_neg h1, if_pos hL]
  split
  next j hj =>
    by_cases hL1 : message.takeWhile (fun c => c ≠ '\n') = []
    · rw [if_pos hL1]
    · rw [if_neg hL1]
      have hlt := firstNlIdx_lt_length _ j hj
      have hws : ∀ c ∈ (message.drop
          ((message.takeWhile (fun x => x ≠ '\n')).length + 1)).take (j + 1),
          jsWS c = true := by
        apply takeWhile_prefix_ws
        omega
      rw [jsTrim_drop_of_leading_ws (j + 1) _ hws]
  next hj => rfl

theorem parseCommitMessage_eq_spec (message : Str) :
    parseCommitMessage message = parseCommitMessageSpec message := by
  by_cases h1 : message = []
  · subst h1; rfl
  · by_cases hL : (message.takeWhile (fun c => c ≠ '\n')).length < message.length
    · rw [parseCommitMessage_has_nl message h1 hL,
        parseCommitMessageSpec_has_nl message h1 hL]
    · have hEq : (message.takeWhile (fun c => c ≠ '\n')).length
          = message.length := by
        have hle := (List.takeWhile_sublist (l := message)
          (fun c => decide (c ≠ '\n'))).length_le
        omega
      have hm : emptyLineMatch message = none := by
        simp only [emptyLineMatch]
        by_cases hL1 : message.takeWhile (fun c => c ≠ '\n') = []
        · rw [if_pos hL1]
        · rw [if_neg hL1, if_pos hEq]
      simp only [parseCommitMessage, parseCommitMessageSpec]
      rw [if_neg h1, if_neg h1, hm]
      simp only [if_neg hL]

/-- Counterexample to claim C4 as stated: for a message whose blank line
does not immediately follow the first line, tier (a) of the claim
("everything before the first blank line is the title") predicts the
two-line title `"title\nbody2"`, but the code splits at the first newline
and returns title `"title"`. -/
theorem c4_counterexample_late_blank_line :
    parseCommitMessage "title\nbody2\n\nbody3".data
      = ("title".data, "body2\n\nbody3".data) ∧
    parseCommitMessage "title\nbody2\n\nbody3".data
      ≠ ("title\nbody2".data, "body3".data) := by
  constructor
  · decide
  · decide

/-- Claim C4 (amended): the title/body split follows the four-tier fallback
with tier (a) narrowed to the case the regex `/^(.+?)\n\s*\n/` recognizes —
the non-empty first line is immediately followed by a whitespace-only line
terminated by a newline; then the title is the trimmed first line and the
body the trimmed remainder after that blank line.  Tier (b) splits at the
first newline, tier (c) splits a single-line message longer than 72
characters at the first `". "` whose period index is below 100 (title keeps
the period), tier (d) returns the whole trimmed message with empty body.
`"Fix the bug\n\nBody text here."` gives title `"Fix the bug"` and body
`"Body text here."`. -/
theorem c4_parseCommitMessage_four_tier :
    (∀ message : Str,
      parseCommitMessage message = parseCommitMessageSpec message) ∧
    parseCommitMessage "Fix the bug\n\nBody text here.".data
      = ("Fix the bug".data, "Body text here.".data) :=
  ⟨parseCommitMessage_eq_spec, by decide⟩

set_option maxRecDepth 16000 in
/-- Claim C5: in flat organization a commit with no selected files yields
exactly one commit-only slide rendered from the built-in default
commit-only template (the user slide template is ignored for it), a commit
with selected files yields one slide per file, and the slides are joined
with `"\n\n---\n\n"`; four commits — two without files, two with one file
each — produce exactly the four slides (2 commit-only + 2 file) with three
separators. -/
theorem c5_generateFlatSlides_structure :
    (∀ (opts : SlideFormatOptions) (commits : List GitCommit)
        (fileDiffs : FileDiffMap),
      flatSlideList opts commits fileDiffs =
        commits.flatMap (fun commit =>
          let diffs := (mapGet fileDiffs commit.hash).getD []
          if diffs.isEmpty then [generateCommitOnlySlide opts commit]
          else diffs.map (fun d => generateFileSlide opts commit d diffs))) ∧
    (∀ (opts : SlideFormatOptions) (t : Str) (c : GitCommit),
      generateCommitOnlySlide { opts with slideTemplate := t } c =
        generateCommitOnlySlide opts c) ∧
    (∀ (opts : SlideFormatOptions) (commits : List GitCommit)
        (fileDiffs : FileDiffMap),
      generateFlatSlides opts commits fileDiffs =
        List.intercalate "\n\n---\n\n".data
          ((flatSlideList opts commits fileDiffs).map formatSlide)) ∧
    (let c1 : GitCommit :=
      ⟨"a1".data, "a1".data, "First commit".data,
       "Al <al@example.com>".data, ⟨2024, 0, 15, 10, 30⟩, []⟩
     let c2 : GitCommit :=
      ⟨"b2".data, "b2".data, "Second commit".data,
       "Bo <bo@example.com>".data, ⟨2024, 1, 16, 11, 0⟩, []⟩
     let c3 : GitCommit :=
      ⟨"c3".data, "c3".data, "Third commit".data,
       "Cy <cy@example.com>".data, ⟨2024, 2, 17, 12, 5⟩, []⟩
     let c4 : GitCommit :=
      ⟨"d4".data, "d4".data, "Fourth commit".data,
       "Di <di@example.com>".data, ⟨2024, 3, 18, 13, 45⟩, []⟩
     let d3 : GitFileDiff :=
      ⟨"src/a.ts".data,
       [⟨1, 1, 1, 2, [2], [],
         [⟨LineType.context, "x".data, some 1, some 1⟩,
          ⟨LineType.added, "y".data, none, some 2⟩]⟩],
       none, "typescript".data⟩
     let d4 : GitFileDiff := ⟨"b.js".data, [], none, "javascript".data⟩
     let fd : FileDiffMap := [("c3".data, [d3]), ("d4".data, [d4])]
     flatSlideList createDefaultFormatOptions [c1, c2, c3, c4] fd =
        [generateCommitOnlySlide createDefaultFormatOptions c1,
         generateCommitOnlySlide createDefaultFormatOptions c2,
         generateFileSlide createDefaultFormatOptions c3 d3 [d3],
         generateFileSlide createDefaultFormatOptions c4 d4 [d4]] ∧
      generateFlatSlides createDefaultFormatOptions [c1, c2, c3, c4] fd =
        formatSlide (generateCommitOnlySlide createDefaultFormatOptions c1) ++
          "\n\n---\n\n".data ++
          formatSlide (generateCommitOnlySlide createDefaultFormatOptions c2) ++
          "\n\n---\n\n".data ++
          formatSlide
            (generateFileSlide createDefaultFormatOptions c3 d3 [d3]) ++
          "\n\n---\n\n".data ++
          formatSlide
            (generateFileSlide createDefaultFormatOptions c4 d4 [d4])) := by
  refine ⟨?_, fun opts t c => rfl, fun opts commits fileDiffs => rfl, ?_⟩
  · intro opts commits fileDiffs
    exact foldl_append_eq_bind _ commits []
  · exact ⟨by decide, by decide⟩
